import Mathlib

/-!
Verification of the reconciliation and scan-workflow engine of a Drive
folder monitor (Node.js server).  The definitions below are a shallow
embedding of the server's state and operations: JS objects keyed by file
id become association lists with JS `Map` / object-property semantics
(update in place, insert at the end), the `for` loops become structural
recursions, and the asynchronous scan sequence is split into its three
synchronous phases separated by the timer suspension points.
-/

namespace AvScan

/-- Which monitored folder a listed file was observed under
(the `source` tag attached by `listFilesInFolder`). -/
inductive Source where
  | scan
  | quarantine
  deriving DecidableEq

/-- Scan status values stored in `scanStore`. -/
inductive ScanStatus where
  | pending
  | scanning
  | clean
  | infected
  deriving DecidableEq

/-- One remotely observed file, as produced by `listFilesInFolder`.
`modifiedTime` is modelled as an abstract timestamp (absent when the
provider omits it). -/
structure FileRecord where
  id : String
  name : String
  mimeType : String
  size : String
  modifiedTime : Option Nat
  webViewLink : Option String
  webContentLink : Option String
  md5Checksum : Option String
  source : Source
  deriving DecidableEq

/-- An entry of `scanStore`. -/
structure ScanRecord where
  status : ScanStatus
  lastScannedAt : Option Nat
  deriving DecidableEq

/-- JS `Map.set` / object property assignment on a string-keyed
association list: update the existing entry in place, otherwise append. -/
def mapSet {α : Type} (m : List (String × α)) (k : String) (v : α) :
    List (String × α) :=
  if m.any (fun p => p.1 == k) then
    m.map (fun p => if p.1 == k then (k, v) else p)
  else m ++ [(k, v)]

/-- JS `Map.get` / object property read. -/
def storeGet {α : Type} (m : List (String × α)) (k : String) : Option α :=
  (m.find? (fun p => p.1 == k)).map (fun p => p.2)

/-- JS `delete obj[k]` / `Map.delete`. -/
def storeDelete {α : Type} (m : List (String × α)) (k : String) :
    List (String × α) :=
  m.filter (fun p => p.1 != k)

/-- The letters whose in-order occurrence flags a file name. -/
def eicarTarget : List Char := ['e', 'i', 'c', 'a', 'r']

/-- The greedy pointer loop inside `isEicarish`: walk the name once,
advancing a pointer into the target each time the current character
matches it; succeed when the pointer exhausts the target. -/
def subseqScan : List Char → List Char → Bool
  | _, [] => true
  | [], _ :: _ => false
  | c :: s, t :: ts => if c = t then subseqScan s ts else subseqScan s (t :: ts)

/-- `isEicarish(filename)`: true when `e,i,c,a,r` appear in sequence
(case-insensitive) with any characters between.  The `!filename` guard of
the source returns false for the empty string; JS `toLowerCase` is
modelled character-wise. -/
def isEicarish (filename : String) : Bool :=
  if filename = "" then false
  else subseqScan (filename.data.map Char.toLower) eicarTarget

/-- The terminal decision of `simulateScan`: infected exactly when the
name is EICAR-ish, clean otherwise. -/
def scanVerdict (name : String) : ScanStatus :=
  if isEicarish name then ScanStatus.infected else ScanStatus.clean

/-- The folder configuration read from the environment.  Either folder id
may be absent (`SCAN_FOLDER_ID` falls back to `GOOGLE_FOLDER_ID`;
`QUARANTINE_FOLDER_ID` defaults to null). -/
structure Config where
  scanFolderId : Option String
  quarantineFolderId : Option String
  deriving DecidableEq

/-- The remote Drive, abstracted: the parents of a file (what
`drive.files.get` with `fields: parents` returns) and the metadata
fetched after a move into the scan folder. -/
structure Remote where
  parents : String → List String
  meta : String → FileRecord

/-- Outbound socket events emitted by the server (payload fields that the
claims do not mention are elided). -/
inductive Event where
  | fileList
  | scanComplete (fileId : String) (status : ScanStatus)
  | fileMoved (fileId : String) (targetFolderId : String) (unchanged : Bool)
  | moveFailed (fileId : String) (error : String)
  | deleteFailed (fileId : String) (error : String)
  | fileDeleted (fileId : String)
  | scanAlert (error : String)
  deriving DecidableEq

/-- Remote Drive calls issued by an operation, in order. -/
inductive DriveOp where
  | get (fileId : String)
  | update (fileId : String) (addParent : String) (removeParents : List String)
  | getMeta (fileId : String)
  | delete (fileId : String)
  deriving DecidableEq

/-- The value returned by `moveFileById` (the JS object's `unchanged`
field is absent, hence falsy, on the update path). -/
structure MoveResult where
  success : Bool
  unchanged : Bool
  deriving DecidableEq

/-- The server's mutable state: `fileStore` (authoritative file list),
`scanStore` (per-id scan records) and `scanningJobs` (the activity-lock
set of ids with an in-flight scan sequence). -/
structure LocalState where
  fileStore : List FileRecord
  scanStore : List (String × ScanRecord)
  scanningJobs : List String
  deriving DecidableEq

/-- The comparator passed to `Array.prototype.sort` in `listFiles` (and
when re-inserting a file moved into the scan folder): timestamp
difference when both sides carry a `modifiedTime`, otherwise a
descending name comparison as fallback. -/
def sortCmp (a b : FileRecord) : Int :=
  match a.modifiedTime, b.modifiedTime with
  | some ta, some tb => (tb : Int) - (ta : Int)
  | _, _ =>
    if b.name.data < a.name.data then -1
    else if b.name = a.name then 0
    else 1

/-- `a` may stay before `b` under the comparator. -/
def sortLe (a b : FileRecord) : Bool := sortCmp a b ≤ 0

/-- Stable insertion used to model the (ES2019-stable) JS sort. -/
def jsInsert (a : FileRecord) : List FileRecord → List FileRecord
  | [] => [a]
  | b :: l => if sortLe a b then a :: b :: l else b :: jsInsert a l

/-- Stable sort modelling `Array.prototype.sort` with `sortCmp`:
earlier elements are inserted in front of comparator-equal later ones. -/
def jsSort : List FileRecord → List FileRecord
  | [] => []
  | a :: l => jsInsert a (jsSort l)

/-- The `Map` built in `listFiles`: first all scan-folder files, then all
quarantine-folder files, so a quarantine entry overwrites a scan entry
with the same id. -/
def buildMap : List FileRecord → List (String × FileRecord) → List (String × FileRecord)
  | [], m => m
  | f :: rest, m => buildMap rest (mapSet m f.id f)

/-- `listFiles`: merge the two folder listings by id (quarantine wins)
and sort with `sortCmp`. -/
def listFiles (scanFiles quarantineFiles : List FileRecord) : List FileRecord :=
  jsSort ((buildMap quarantineFiles (buildMap scanFiles [])).map (fun p => p.2))

/-- The `changes` record produced by `detectChanges`. -/
structure Changes where
  added : List FileRecord
  modified : List FileRecord
  deleted : List FileRecord
  hasChanges : Bool
  deriving DecidableEq

/-- The first loop of `detectChanges`: walk the entries of the new file
map; ids absent from the old map are `added`; ids present with a
different `modifiedTime` or `source` are `modified`, and their scan
record is deleted on the spot. -/
def detectLoop1 (oldFileMap : List (String × FileRecord)) :
    List (String × FileRecord) → Changes → List (String × ScanRecord) →
      Changes × List (String × ScanRecord)
  | [], ch, ss => (ch, ss)
  | p :: rest, ch, ss =>
    match oldFileMap.find? (fun q => q.1 == p.1) with
    | none =>
      detectLoop1 oldFileMap rest
        { ch with added := ch.added ++ [p.2], hasChanges := true } ss
    | some q =>
      if q.2.modifiedTime ≠ p.2.modifiedTime ∨ q.2.source ≠ p.2.source then
        detectLoop1 oldFileMap rest
          { ch with modified := ch.modified ++ [p.2], hasChanges := true }
          (storeDelete ss p.1)
      else detectLoop1 oldFileMap rest ch ss

/-- The second loop of `detectChanges`: old-map entries whose id is gone
from the new map are `deleted`, and their scan record is deleted. -/
def detectLoop2 (newFileMap : List (String × FileRecord)) :
    List (String × FileRecord) → Changes → List (String × ScanRecord) →
      Changes × List (String × ScanRecord)
  | [], ch, ss => (ch, ss)
  | p :: rest, ch, ss =>
    if (newFileMap.find? (fun q => q.1 == p.1)).isNone then
      detectLoop2 newFileMap rest
        { ch with deleted := ch.deleted ++ [p.2], hasChanges := true }
        (storeDelete ss p.1)
    else detectLoop2 newFileMap rest ch ss

/-- `detectChanges(newFiles)` against the current `fileStore`.  The JS
function reads the global `fileStore` and mutates the global `scanStore`;
both are made explicit parameters, and the mutated scan store is
returned alongside the `changes` record. -/
def detectChanges (fileStore : List FileRecord)
    (scanStore : List (String × ScanRecord)) (newFiles : List FileRecord) :
    Changes × List (String × ScanRecord) :=
  let newFileMap := buildMap newFiles []
  let oldFileMap := buildMap fileStore []
  let r1 := detectLoop1 oldFileMap newFileMap ⟨[], [], [], false⟩ scanStore
  detectLoop2 newFileMap oldFileMap r1.1 r1.2

/-- Replace the first file-store entry with the given id (JS
`Object.assign(existing, item)` on the record found by `find`). -/
def replaceFirst (fileId : String) (item : FileRecord) :
    List FileRecord → List FileRecord
  | [] => []
  | f :: rest =>
    if f.id == fileId then item :: rest else f :: replaceFirst fileId item rest

/-- `moveFileById(fileId, targetFolderId)`.  Returns the JS result object,
the updated local state, and the remote calls issued, in order.  The
remote update is modelled on its success path: afterwards the file's only
parent is the target folder. -/
def moveFileById (cfg : Config) (rem : Remote) (st : LocalState)
    (fileId targetFolderId : String) (now : Nat) :
    MoveResult × LocalState × List DriveOp :=
  let currentParentsArray := rem.parents fileId
  if targetFolderId ∈ currentParentsArray then
    ({ success := true, unchanged := true }, st, [DriveOp.get fileId])
  else
    let resParents := [targetFolderId]
    let stillHasScanParent : Bool :=
      match cfg.scanFolderId with
      | some sid => resParents.contains sid
      | none => false
    let fs1 :=
      if stillHasScanParent then st.fileStore
      else st.fileStore.filter (fun f => f.id != fileId)
    let ss1 :=
      if cfg.quarantineFolderId = some targetFolderId then
        mapSet st.scanStore fileId ⟨ScanStatus.infected, some now⟩
      else st.scanStore
    if cfg.scanFolderId = some targetFolderId then
      let item : FileRecord := { rem.meta fileId with source := Source.scan }
      let fs2 :=
        if (fs1.find? (fun f => f.id == fileId)).isSome then
          replaceFirst fileId item fs1
        else jsSort (fs1 ++ [item])
      let ss2 := mapSet ss1 fileId ⟨ScanStatus.clean, some now⟩
      ({ success := true, unchanged := false },
       { st with fileStore := fs2, scanStore := ss2 },
       [DriveOp.get fileId,
        DriveOp.update fileId targetFolderId currentParentsArray,
        DriveOp.getMeta fileId])
    else
      ({ success := true, unchanged := false },
       { st with fileStore := fs1, scanStore := ss1 },
       [DriveOp.get fileId,
        DriveOp.update fileId targetFolderId currentParentsArray])

/-- The synchronous head of `simulateScan`: a no-op when the id is
already in `scanningJobs` (the returned flag is false and no event is
emitted); otherwise the id joins `scanningJobs`, its status becomes
`scanning` and the file list is broadcast. -/
def beginScan (st : LocalState) (fileId : String) :
    LocalState × List Event × Bool :=
  if fileId ∈ st.scanningJobs then (st, [], false)
  else
    ({ st with
        scanningJobs := fileId :: st.scanningJobs,
        scanStore := mapSet st.scanStore fileId ⟨ScanStatus.scanning, none⟩ },
     [Event.fileList], true)

/-- The first timer continuation of `simulateScan`: status becomes the
intermediate `pending`, a `scan_complete(pending)` event and the file
list are broadcast. -/
def scanPending (st : LocalState) (fileId : String) : LocalState × List Event :=
  ({ st with scanStore := mapSet st.scanStore fileId ⟨ScanStatus.pending, none⟩ },
   [Event.scanComplete fileId ScanStatus.pending, Event.fileList])

/-- The second timer continuation of `simulateScan`: look the file up in
the (possibly changed) `fileStore`, defaulting to an empty name and the
`scan` source when it vanished; write the terminal verdict with
`lastScannedAt = now`; broadcast; then auto-quarantine an infected file
(unless already observed in quarantine) or auto-restore a clean
quarantined file, and finally release the activity lock. -/
def scanFinal (cfg : Config) (rem : Remote) (st : LocalState)
    (fileId : String) (now : Nat) : LocalState × List Event × ScanStatus :=
  let fileObj := st.fileStore.find? (fun f => f.id == fileId)
  let name := match fileObj with | some f => f.name | none => ""
  let source := match fileObj with | some f => f.source | none => Source.scan
  let infected := isEicarish name
  let finalStatus := scanVerdict name
  let st1 := { st with scanStore := mapSet st.scanStore fileId ⟨finalStatus, some now⟩ }
  let ev1 := [Event.scanComplete fileId finalStatus, Event.fileList]
  let r2 :=
    if infected then
      match cfg.quarantineFolderId with
      | some qid =>
        if source ≠ Source.quarantine then
          let mv := moveFileById cfg rem st1 fileId qid now
          if mv.1.success then
            (mv.2.1, [Event.fileMoved fileId qid false, Event.fileList])
          else (st1, [Event.scanAlert "Auto-quarantine failed"])
        else (st1, [])
      | none => (st1, [])
    else (st1, [])
  let r3 :=
    if ¬ infected ∧ source = Source.quarantine then
      match cfg.scanFolderId with
      | some sid =>
        let mv := moveFileById cfg rem r2.1 fileId sid now
        if mv.1.success then
          (mv.2.1, [Event.fileMoved fileId sid false, Event.fileList])
        else (r2.1, [Event.scanAlert "Auto-restore failed"])
      | none => r2
    else r2
  ({ r3.1 with scanningJobs := r3.1.scanningJobs.erase fileId },
   ev1 ++ r2.2 ++ r3.2, finalStatus)

/-- The event trace of issuing `beginScan` twice for the same id (the
second call before the first sequence completes) and then letting the
started sequence run its two timer phases. -/
def twoBeginTrace (cfg : Config) (rem : Remote) (st : LocalState)
    (fileId : String) (now : Nat) : List Event :=
  let r1 := beginScan st fileId
  let r2 := beginScan r1.1 fileId
  let r3 := scanPending r2.1 fileId
  let r4 := scanFinal cfg rem r3.1 fileId now
  r1.2.1 ++ r2.2.1 ++ r3.2 ++ r4.2.1

/-- A `scan_complete` event carrying a terminal verdict for the id. -/
def isTerminalEvent (fileId : String) : Event → Bool
  | Event.scanComplete i s =>
    i == fileId && (s == ScanStatus.clean || s == ScanStatus.infected)
  | _ => false

/-- The scan-launch loop of `pollFolder`: for each added/modified file
observed under the scan folder, skip ids already locked, otherwise set
status `scanning` and start `simulateScan` (whose synchronous head is
`beginScan`). -/
def launchScans : List FileRecord → LocalState → List Event →
    LocalState × List Event
  | [], st, evs => (st, evs)
  | f :: rest, st, evs =>
    if f.id ∈ st.scanningJobs then launchScans rest st evs
    else
      let st1 := { st with
        scanStore := mapSet st.scanStore f.id ⟨ScanStatus.scanning, none⟩ }
      let r := beginScan st1 f.id
      launchScans rest r.1 (evs ++ r.2.1)

/-- The state-updating core of one `pollFolder` tick, given the freshly
listed snapshot: diff, and when anything changed replace the file store,
launch scans for added/modified scan-folder files and broadcast. -/
def pollApply (st : LocalState) (newFiles : List FileRecord) :
    LocalState × List Event :=
  let r := detectChanges st.fileStore st.scanStore newFiles
  if r.1.hasChanges then
    let st1 : LocalState := { st with fileStore := newFiles, scanStore := r.2 }
    let toScan := (r.1.added ++ r.1.modified).filter (fun f => f.source == Source.scan)
    let r2 := launchScans toScan st1 []
    (r2.1, r2.2 ++ [Event.fileList])
  else ({ st with scanStore := r.2 }, [])

/-- The `rescan_file` socket handler.  It receives the authorization flag
of the process but never consults it: any non-empty id is set to
`scanning` and rebroadcast, starting a sequence unless one is in
flight. -/
def rescanHandler (isAuthorized : Bool) (st : LocalState) (fileId : String) :
    LocalState × List Event :=
  if fileId = "" then (st, [])
  else if fileId ∉ st.scanningJobs then
    let st1 := { st with
      scanStore := mapSet st.scanStore fileId ⟨ScanStatus.scanning, none⟩ }
    let r := beginScan st1 fileId
    (r.1, Event.fileList :: r.2.1)
  else
    ({ st with
        scanStore := mapSet st.scanStore fileId ⟨ScanStatus.scanning, none⟩ },
     [Event.fileList])

/-- The `move_file` socket handler: missing-field check, then
authorization check, then `moveFileById` and a broadcast on success. -/
def moveHandler (isAuthorized : Bool) (cfg : Config) (rem : Remote)
    (st : LocalState) (fileId targetFolderId : String) (now : Nat) :
    LocalState × List Event :=
  if fileId = "" ∨ targetFolderId = "" then
    (st, [Event.moveFailed fileId "Missing fileId or targetFolderId"])
  else if ¬ isAuthorized then (st, [Event.moveFailed fileId "Not authorized"])
  else
    let r := moveFileById cfg rem st fileId targetFolderId now
    if r.1.success then
      (r.2.1, [Event.fileMoved fileId targetFolderId r.1.unchanged, Event.fileList])
    else (st, [Event.moveFailed fileId "Move failed"])

/-- The `delete_file` socket handler on its success path: authorization
check, remote delete, then local cleanup of all three stores. -/
def deleteHandler (isAuthorized : Bool) (st : LocalState) (fileId : String) :
    LocalState × List Event :=
  if fileId = "" then (st, [])
  else if ¬ isAuthorized then (st, [Event.deleteFailed fileId "Not authorized"])
  else
    ({ fileStore := st.fileStore.filter (fun f => f.id != fileId),
       scanStore := storeDelete st.scanStore fileId,
       scanningJobs := st.scanningJobs.erase fileId },
     [Event.fileDeleted fileId, Event.fileList])

/-- Modelled from the spec's ordering words (claim C5): element `a` may
precede element `b` when `a` has the strictly later `modifiedAt`, or the
timestamps are equal and the names are in descending order. -/
def tieBreakSpecRel (a b : FileRecord) : Prop :=
  b.modifiedTime.getD 0 < a.modifiedTime.getD 0 ∨
    (a.modifiedTime = b.modifiedTime ∧ ¬ a.name.data < b.name.data)

instance : DecidableRel tieBreakSpecRel := fun a b => by
  unfold tieBreakSpecRel
  infer_instance

/-- The added-branch condition of the first `detectChanges` loop. -/
def addCond (old : List (String × FileRecord)) (p : String × FileRecord) : Bool :=
  (old.find? (fun q => q.1 == p.1)).isNone

/-- The modified-branch condition of the first `detectChanges` loop. -/
def modCond (old : List (String × FileRecord)) (p : String × FileRecord) : Bool :=
  match old.find? (fun q => q.1 == p.1) with
  | none => false
  | some q => decide (q.2.modifiedTime ≠ p.2.modifiedTime ∨ q.2.source ≠ p.2.source)

/-- The deleted-branch condition of the second `detectChanges` loop. -/
def delCond (nw : List (String × FileRecord)) (p : String × FileRecord) : Bool :=
  (nw.find? (fun q => q.1 == p.1)).isNone

theorem find?_map_setEntry_self {α : Type} (k : String) (v : α)
    (m : List (String × α)) (hm : m.any (fun p => p.1 == k) = true) :
    List.find? (fun p => p.1 == k) (m.map (fun p => if p.1 == k then (k, v) else p))
      = some (k, v) := by
  induction m with
  | nil => simp at hm
  | cons q m ih =>
    rw [List.map_cons]
    by_cases hq : (q.1 == k) = true
    · have hq1 : q.1 = k := by simpa using hq
      rw [if_pos (by exact_mod_cast hq)]
      exact List.find?_cons_of_pos _ (by simp)
    · rw [if_neg (by simpa using hq)]
      rw [@List.find?_cons_of_neg _ (fun r => r.1 == k) q _ hq]
      apply ih
      simp only [List.any_cons, Bool.or_eq_true] at hm
      rcases hm with h1 | h1
      · exact absurd h1 hq
      · exact h1

theorem find?_append_single_self {α : Type} (k : String) (v : α)
    (m : List (String × α)) (hm : m.any (fun p => p.1 == k) = false) :
    List.find? (fun p => p.1 == k) (m ++ [(k, v)]) = some (k, v) := by
  induction m with
  | nil => exact List.find?_cons_of_pos _ (by simp)
  | cons q m ih =>
    simp only [List.any_cons, Bool.or_eq_false_iff] at hm
    rw [List.cons_append, @List.find?_cons_of_neg _ (fun r => r.1 == k) q _ (by simp [hm.1])]
    exact ih hm.2

theorem find?_map_setEntry_ne {α : Type} (k k' : String) (v : α)
    (hkk' : (k == k') = false) (m : List (String × α)) :
    List.find? (fun p => p.1 == k') (m.map (fun p => if p.1 == k then (k, v) else p))
      = List.find? (fun p => p.1 == k') m := by
  induction m with
  | nil => rfl
  | cons q m ih =>
    rw [List.map_cons]
    by_cases hq : (q.1 == k) = true
    · have hq1 : q.1 = k := by simpa using hq
      have hq' : (q.1 == k') = false := by rw [hq1]; exact hkk'
      rw [if_pos (by exact_mod_cast hq)]
      rw [@List.find?_cons_of_neg _ (fun r => r.1 == k') (k, v) _ (by simp [hkk'])]
      rw [@List.find?_cons_of_neg _ (fun r => r.1 == k') q _ (by simp [hq'])]
      exact ih
    · rw [if_neg (by simpa using hq)]
      by_cases hq' : (q.1 == k') = true
      · rw [@List.find?_cons_of_pos _ (fun r => r.1 == k') q _ hq',
          @List.find?_cons_of_pos _ (fun r => r.1 == k') q _ hq']
      · rw [@List.find?_cons_of_neg _ (fun r => r.1 == k') q _ hq',
          @List.find?_cons_of_neg _ (fun r => r.1 == k') q _ hq']
        exact ih

theorem find?_append_single_ne {α : Type} (k k' : String) (v : α)
    (hkk' : (k == k') = false) (m : List (String × α)) :
    List.find? (fun p => p.1 == k') (m ++ [(k, v)]) = List.find? (fun p => p.1 == k') m := by
  induction m with
  | nil =>
    rw [List.nil_append, @List.find?_cons_of_neg _ (fun r => r.1 == k') (k, v) _ (by simp [hkk'])]
  | cons q m ih =>
    rw [List.cons_append]
    by_cases hq' : (q.1 == k') = true
    · rw [@List.find?_cons_of_pos _ (fun r => r.1 == k') q _ hq',
        @List.find?_cons_of_pos _ (fun r => r.1 == k') q _ hq']
    · rw [@List.find?_cons_of_neg _ (fun r => r.1 == k') q _ hq',
        @List.find?_cons_of_neg _ (fun r => r.1 == k') q _ hq']
      exact ih

theorem storeGet_mapSet_self {α : Type} (m : List (String × α)) (k : String) (v : α) :
    storeGet (mapSet m k v) k = some v := by
  unfold storeGet mapSet
  by_cases hm : m.any (fun p => p.1 == k)
  · rw [if_pos hm, find?_map_setEntry_self k v m hm]; rfl
  · rw [if_neg hm, find?_append_single_self k v m (by
        simp only [Bool.not_eq_true] at hm; exact hm)]
    rfl

theorem storeGet_mapSet_ne {α : Type} (m : List (String × α)) (k k' : String) (v : α)
    (h : k' ≠ k) : storeGet (mapSet m k v) k' = storeGet m k' := by
  have hkk' : (k == k') = false := beq_eq_false_iff_ne.mpr (Ne.symm h)
  unfold storeGet mapSet
  by_cases hm : m.any (fun p => p.1 == k)
  · rw [if_pos hm, find?_map_setEntry_ne k k' v hkk' m]
  · rw [if_neg hm, find?_append_single_ne k k' v hkk' m]

theorem subseqScan_iff (s t : List Char) :
    subseqScan s t = true ↔ List.Sublist t s := by
  induction s generalizing t with
  | nil =>
    cases t with
    | nil => simp [subseqScan]
    | cons t0 ts => simp [subseqScan]
  | cons c s ih =>
    cases t with
    | nil => simp [subseqScan]
    | cons t0 ts =>
      by_cases hc : c = t0
      · subst hc
        rw [subseqScan, if_pos rfl, ih]
        exact (List.cons_sublist_cons).symm
      · rw [subseqScan, if_neg hc, ih]
        constructor
        · intro hsub; exact hsub.cons c
        · intro hsub
          cases hsub with
          | cons _ h => exact h
          | cons₂ _ h => exact absurd rfl hc

/-- A `beginScan` on an unlocked id starts the sequence. -/
theorem beginScan_not_locked (st : LocalState) (fileId : String)
    (h : fileId ∉ st.scanningJobs) :
    beginScan st fileId =
      ({ st with
          scanningJobs := fileId :: st.scanningJobs,
          scanStore := mapSet st.scanStore fileId ⟨ScanStatus.scanning, none⟩ },
       [Event.fileList], true) := by
  unfold beginScan
  rw [if_neg h]

/-- A `beginScan` on a locked id is a complete no-op. -/
theorem beginScan_locked (st : LocalState) (fileId : String)
    (h : fileId ∈ st.scanningJobs) :
    beginScan st fileId = (st, [], false) := by
  unfold beginScan
  rw [if_pos h]

/-- Claim C1: the scan verdict is `infected` if and only if the characters
e, i, c, a, r occur in that order as a (not necessarily contiguous)
case-insensitive subsequence of the file name; `scanVerdict` is by
construction a deterministic function of the name alone. -/
theorem verdict_infected_iff_eicar_subsequence (name : String) :
    scanVerdict name = ScanStatus.infected ↔
      List.Sublist eicarTarget (name.data.map Char.toLower) := by
  have hiff : isEicarish name = true ↔
      List.Sublist eicarTarget (name.data.map Char.toLower) := by
    unfold isEicarish
    by_cases h : name = ""
    · subst h
      rw [if_pos rfl]
      simp only [Bool.false_eq_true, false_iff]
      decide
    · rw [if_neg h]
      exact subseqScan_iff _ _
  constructor
  · intro hv
    cases hb : isEicarish name with
    | true => exact hiff.mp hb
    | false =>
      unfold scanVerdict at hv
      rw [hb] at hv
      simp at hv
  · intro hsub
    unfold scanVerdict
    rw [hiff.mpr hsub]
    rfl

/-- Claim C3 counterexample: `detectChanges` is not free of side effects on
the scan map.  With one previously known file, a scan record for it, and
an empty current snapshot, the file is detected as deleted and its scan
record is removed from the returned scan map, which therefore differs
from the input scan map. -/
theorem detectChanges_mutates_scanStore :
    (detectChanges
        [⟨"a", "a.txt", "text/plain", "0", some 5, none, none, none, Source.scan⟩]
        [("a", ⟨ScanStatus.pending, none⟩)]
        []).2 ≠ [("a", ⟨ScanStatus.pending, none⟩)] := by
  decide

/-- Claim C5 counterexample: two scan-folder files with the same
`modifiedAt` and names in ascending order are returned by `listFiles` in
their listing order — the comparator returns 0 on equal timestamps and
the stable sort keeps them, so the tie is NOT broken by name
descending. -/
theorem listFiles_tie_not_broken_by_name :
    ¬ (listFiles
        [⟨"1", "a", "text/plain", "0", some 5, none, none, none, Source.scan⟩,
         ⟨"2", "b", "text/plain", "0", some 5, none, none, none, Source.scan⟩]
        []).Pairwise tieBreakSpecRel := by
  decide

/-- Claim C7 counterexample: a file that is mid-scan (its id is in
`scanningJobs`) and disappears from both folders has its scan record
cleared by the reconciliation pass, but its id is NOT removed from the
activity-lock set. -/
theorem reconcile_delete_keeps_activity_lock :
    storeGet (pollApply
        ⟨[⟨"f1", "doc.txt", "text/plain", "0", some 5, none, none, none, Source.scan⟩],
         [("f1", ⟨ScanStatus.scanning, none⟩)], ["f1"]⟩ []).1.scanStore "f1" = none
    ∧ "f1" ∈ (pollApply
        ⟨[⟨"f1", "doc.txt", "text/plain", "0", some 5, none, none, none, Source.scan⟩],
         [("f1", ⟨ScanStatus.scanning, none⟩)], ["f1"]⟩ []).1.scanningJobs := by
  decide

/-- Claim C9 counterexample: a move request towards the quarantine folder
for a file that is already located there succeeds (`unchanged = true`)
but leaves a previously `clean` scan status untouched: not every
successful quarantine-targeted move overwrites the status to
`infected`. -/
theorem quarantine_noop_move_keeps_clean_status :
    (moveFileById ⟨some "S", some "Q"⟩
        ⟨fun _ => ["Q"], fun _ => ⟨"f", "n.txt", "t", "0", none, none, none, none, Source.scan⟩⟩
        ⟨[], [("f", ⟨ScanStatus.clean, some 1⟩)], []⟩ "f" "Q" 2).1.success = true
    ∧ storeGet (moveFileById ⟨some "S", some "Q"⟩
        ⟨fun _ => ["Q"], fun _ => ⟨"f", "n.txt", "t", "0", none, none, none, none, Source.scan⟩⟩
        ⟨[], [("f", ⟨ScanStatus.clean, some 1⟩)], []⟩ "f" "Q" 2).2.1.scanStore "f"
      = some ⟨ScanStatus.clean, some 1⟩ := by
  constructor
  · rfl
  · rfl

/-- Claim C6: relocation is idempotent.  When the target folder is already
among the file's current remote parents, `moveFileById` is a no-op
success: it returns `unchanged = true`, issues only the metadata `get`
(no remote update), and leaves the whole local state — file list and
scan map — unchanged. -/
theorem move_already_located_is_noop (cfg : Config) (rem : Remote)
    (st : LocalState) (fileId targetFolderId : String) (now : Nat)
    (h : targetFolderId ∈ rem.parents fileId) :
    moveFileById cfg rem st fileId targetFolderId now =
      ({ success := true, unchanged := true }, st, [DriveOp.get fileId]) := by
  unfold moveFileById
  rw [if_pos h]

/-- Witness for C6 at a concrete input. -/
theorem move_already_located_is_noop_witness :
    moveFileById ⟨some "S", some "Q"⟩
        ⟨fun _ => ["Q"], fun _ => ⟨"f", "n.txt", "t", "0", none, none, none, none, Source.scan⟩⟩
        ⟨[], [], []⟩ "f" "Q" 0 =
      ({ success := true, unchanged := true }, ⟨[], [], []⟩, [DriveOp.get "f"]) :=
  move_already_located_is_noop _ _ _ _ _ _ (by decide)

/-- Every modelled `moveFileById` call reports success (failures of the
remote update are outside the embedded success path). -/
theorem moveFileById_success (cfg : Config) (rem : Remote) (st : LocalState)
    (fileId targetFolderId : String) (now : Nat) :
    (moveFileById cfg rem st fileId targetFolderId now).1.success = true := by
  unfold moveFileById
  by_cases h : targetFolderId ∈ rem.parents fileId
  · rw [if_pos h]
  · rw [if_neg h]
    by_cases h2 : cfg.scanFolderId = some targetFolderId
    · simp only [h2, if_pos]
    · simp only [h2, if_neg]
      split <;> rfl

/-- Claim C9 (amended): every move that actually performs the relocation
(the target folder is not among the current parents) and whose target is
the configured quarantine folder — the scan folder being configured
differently — reports success with `unchanged = false` and overwrites the
file's scan record to `infected` with `lastScannedAt = now`, regardless
of any previous (for instance `clean`) verdict. -/
theorem move_to_quarantine_marks_infected (cfg : Config) (rem : Remote)
    (st : LocalState) (fileId targetFolderId : String) (now : Nat)
    (hq : cfg.quarantineFolderId = some targetFolderId)
    (hs : cfg.scanFolderId ≠ some targetFolderId)
    (hnp : targetFolderId ∉ rem.parents fileId) :
    (moveFileById cfg rem st fileId targetFolderId now).1.success = true
    ∧ (moveFileById cfg rem st fileId targetFolderId now).1.unchanged = false
    ∧ storeGet (moveFileById cfg rem st fileId targetFolderId now).2.1.scanStore fileId
        = some ⟨ScanStatus.infected, some now⟩ := by
  obtain ⟨cs, cq⟩ := cfg
  simp only [Config.quarantineFolderId] at hq
  simp only [Config.scanFolderId] at hs
  subst hq
  unfold moveFileById
  rw [if_neg hnp]
  simp only [if_neg hs, if_pos rfl]
  refine ⟨trivial, trivial, ?_⟩
  exact storeGet_mapSet_self _ _ _

/-- Witness for the amended C9 at a concrete input. -/
theorem move_to_quarantine_marks_infected_witness :
    (moveFileById ⟨some "S", some "Q"⟩
        ⟨fun _ => ["S"], fun _ => ⟨"f", "n.txt", "t", "0", none, none, none, none, Source.scan⟩⟩
        ⟨[], [("f", ⟨ScanStatus.clean, some 1⟩)], []⟩ "f" "Q" 2).1.success = true
    ∧ (moveFileById ⟨some "S", some "Q"⟩
        ⟨fun _ => ["S"], fun _ => ⟨"f", "n.txt", "t", "0", none, none, none, none, Source.scan⟩⟩
        ⟨[], [("f", ⟨ScanStatus.clean, some 1⟩)], []⟩ "f" "Q" 2).1.unchanged = false
    ∧ storeGet (moveFileById ⟨some "S", some "Q"⟩
        ⟨fun _ => ["S"], fun _ => ⟨"f", "n.txt", "t", "0", none, none, none, none, Source.scan⟩⟩
        ⟨[], [("f", ⟨ScanStatus.clean, some 1⟩)], []⟩ "f" "Q" 2).2.1.scanStore "f"
      = some ⟨ScanStatus.infected, some 2⟩ :=
  move_to_quarantine_marks_infected _ _ _ _ _ _ (by decide) (by decide) (by decide)

/-- Claim C8: when the scanned id is no longer present in the
authoritative file list at the verdict phase, the name defaults to the
empty string, which is never EICAR-flagged, so the sequence still writes
a terminal `clean` record with `lastScannedAt = now` into the scan map
for the vanished id. -/
theorem vanished_file_scans_clean (cfg : Config) (rem : Remote)
    (st : LocalState) (fileId : String) (now : Nat)
    (h : st.fileStore.find? (fun f => f.id == fileId) = none) :
    (scanFinal cfg rem st fileId now).2.2 = ScanStatus.clean
    ∧ storeGet (scanFinal cfg rem st fileId now).1.scanStore fileId
        = some ⟨ScanStatus.clean, some now⟩ := by
  have h0 : isEicarish "" = false := by decide
  have h1 : scanVerdict "" = ScanStatus.clean := by
    unfold scanVerdict
    rw [h0]
    rfl
  unfold scanFinal
  rw [h]
  simp only [h0, h1, Bool.false_eq_true, if_false, false_and, ite_false,
    not_false_iff, true_and, reduceCtorEq, and_false]
  exact storeGet_mapSet_self _ _ _

/-- Witness for C8 at a concrete input. -/
theorem vanished_file_scans_clean_witness :
    (scanFinal ⟨some "S", some "Q"⟩
        ⟨fun _ => ["S"], fun _ => ⟨"f", "n.txt", "t", "0", none, none, none, none, Source.scan⟩⟩
        ⟨[], [("f", ⟨ScanStatus.pending, none⟩)], ["f"]⟩ "f" 7).2.2 = ScanStatus.clean
    ∧ storeGet (scanFinal ⟨some "S", some "Q"⟩
        ⟨fun _ => ["S"], fun _ => ⟨"f", "n.txt", "t", "0", none, none, none, none, Source.scan⟩⟩
        ⟨[], [("f", ⟨ScanStatus.pending, none⟩)], ["f"]⟩ "f" 7).1.scanStore "f"
      = some ⟨ScanStatus.clean, some 7⟩ :=
  vanished_file_scans_clean _ _ _ _ _ (by decide)

/-- Claim C10: a rescan request carrying a file id is processed whether or
not the process is authorized — the handler's result does not depend on
the flag, the id's status is set to `scanning`, the file list is
broadcast, and every emitted event is that broadcast (in particular no
not-authorized rejection); by contrast, the move and delete handlers
reject with "Not authorized" when the flag is off. -/
theorem rescan_ignores_authorization (auth : Bool) (cfg : Config)
    (rem : Remote) (st : LocalState) (fileId targetFolderId : String)
    (now : Nat) (hf : fileId ≠ "") (ht : targetFolderId ≠ "") :
    rescanHandler auth st fileId = rescanHandler true st fileId
    ∧ storeGet (rescanHandler auth st fileId).1.scanStore fileId
        = some ⟨ScanStatus.scanning, none⟩
    ∧ Event.fileList ∈ (rescanHandler auth st fileId).2
    ∧ (∀ e ∈ (rescanHandler auth st fileId).2, e = Event.fileList)
    ∧ (auth = false →
        moveHandler auth cfg rem st fileId targetFolderId now
          = (st, [Event.moveFailed fileId "Not authorized"])
        ∧ deleteHandler auth st fileId
          = (st, [Event.deleteFailed fileId "Not authorized"])) := by
  have hres : rescanHandler auth st fileId
      = (if fileId ∉ st.scanningJobs then
          ({ st with
              scanningJobs := fileId :: st.scanningJobs,
              scanStore := mapSet (mapSet st.scanStore fileId ⟨ScanStatus.scanning, none⟩)
                fileId ⟨ScanStatus.scanning, none⟩ },
           [Event.fileList, Event.fileList])
         else
          ({ st with
              scanStore := mapSet st.scanStore fileId ⟨ScanStatus.scanning, none⟩ },
           [Event.fileList])) := by
    unfold rescanHandler
    rw [if_neg hf]
    by_cases hin : fileId ∉ st.scanningJobs
    · rw [if_pos hin, if_pos hin]
      show ((beginScan
          { st with scanStore := mapSet st.scanStore fileId ⟨ScanStatus.scanning, none⟩ }
          fileId).1,
        Event.fileList :: (beginScan
          { st with scanStore := mapSet st.scanStore fileId ⟨ScanStatus.scanning, none⟩ }
          fileId).2.1) = _
      rw [beginScan_not_locked
          { st with scanStore := mapSet st.scanStore fileId ⟨ScanStatus.scanning, none⟩ }
          fileId hin]
    · rw [if_neg hin, if_neg hin]
  refine ⟨rfl, ?_, ?_, ?_, ?_⟩
  · rw [hres]
    by_cases hin : fileId ∉ st.scanningJobs
    · rw [if_pos hin]
      exact storeGet_mapSet_self _ _ _
    · rw [if_neg hin]
      exact storeGet_mapSet_self _ _ _
  · rw [hres]
    by_cases hin : fileId ∉ st.scanningJobs
    · rw [if_pos hin]
      exact List.mem_cons_self _ _
    · rw [if_neg hin]
      exact List.mem_cons_self _ _
  · rw [hres]
    by_cases hin : fileId ∉ st.scanningJobs
    · rw [if_pos hin]
      intro e he
      simp only [List.mem_cons, List.not_mem_nil, or_false] at he
      rcases he with rfl | rfl
      · rfl
      · rfl
    · rw [if_neg hin]
      intro e he
      simp only [List.mem_cons, List.not_mem_nil, or_false] at he
      rw [he]
  · intro hauth
    subst hauth
    constructor
    · unfold moveHandler
      rw [if_neg (by simp [hf, ht])]
      rfl
    · unfold deleteHandler
      rw [if_neg hf]
      rfl

/-- Witness for C10 at a concrete input. -/
theorem rescan_ignores_authorization_witness :
    (rescanHandler false ⟨[], [], []⟩ "f" = rescanHandler true ⟨[], [], []⟩ "f"
    ∧ storeGet (rescanHandler false ⟨[], [], []⟩ "f").1.scanStore "f"
        = some ⟨ScanStatus.scanning, none⟩
    ∧ Event.fileList ∈ (rescanHandler false ⟨[], [], []⟩ "f").2
    ∧ (∀ e ∈ (rescanHandler false ⟨[], [], []⟩ "f").2, e = Event.fileList)
    ∧ (false = false →
        moveHandler false ⟨some "S", some "Q"⟩
            ⟨fun _ => ["S"], fun _ => ⟨"f", "n.txt", "t", "0", none, none, none, none, Source.scan⟩⟩
            ⟨[], [], []⟩ "f" "Q" 0
          = (⟨[], [], []⟩, [Event.moveFailed "f" "Not authorized"])
        ∧ deleteHandler false ⟨[], [], []⟩ "f"
          = (⟨[], [], []⟩, [Event.deleteFailed "f" "Not authorized"]))) :=
  rescan_ignores_authorization false _ _ _ "f" "Q" 0 (by decide) (by decide)

theorem scanFinal_terminal_filter (cfg : Config) (rem : Remote) (st : LocalState)
    (fileId : String) (now : Nat) :
    ((scanFinal cfg rem st fileId now).2.1).filter (isTerminalEvent fileId)
      = [Event.scanComplete fileId (scanFinal cfg rem st fileId now).2.2] := by
  rcases hobj : st.fileStore.find? (fun f => f.id == fileId) with _ | f
  · simp [scanFinal, hobj, isTerminalEvent, scanVerdict, List.filter,
      show isEicarish "" = false from rfl]
  · by_cases hinf : isEicarish f.name
    · rcases hq : cfg.quarantineFolderId with _ | qid
      · simp [scanFinal, hobj, hinf, hq, isTerminalEvent, scanVerdict, List.filter]
      · by_cases hsrc : f.source = Source.quarantine
        · simp [scanFinal, hobj, hinf, hq, hsrc, isTerminalEvent, scanVerdict, List.filter]
        · simp [scanFinal, hobj, hinf, hq, hsrc, isTerminalEvent, scanVerdict,
            moveFileById_success, List.filter]
    · by_cases hsrc : f.source = Source.quarantine
      · rcases hs : cfg.scanFolderId with _ | sid
        · simp [scanFinal, hobj, hinf, hsrc, hs, isTerminalEvent, scanVerdict, List.filter]
        · simp [scanFinal, hobj, hinf, hsrc, hs, isTerminalEvent, scanVerdict,
            moveFileById_success, List.filter]
      · simp [scanFinal, hobj, hinf, hsrc, isTerminalEvent, scanVerdict, List.filter]

/-- Claim C4: at most one scan sequence is active per id.  A second
`beginScan` issued while the id is in the activity lock returns
immediately with no state change and no started sequence, so two
`beginScan` calls before the first completes produce, over the whole
trace of the started sequence, exactly one terminal (`clean` or
`infected`) transition. -/
theorem single_scan_sequence (cfg : Config) (rem : Remote) (st : LocalState)
    (fileId : String) (now : Nat) (h : fileId ∉ st.scanningJobs) :
    (beginScan st fileId).2.2 = true
    ∧ beginScan (beginScan st fileId).1 fileId = ((beginScan st fileId).1, ([], false))
    ∧ ((twoBeginTrace cfg rem st fileId now).filter (isTerminalEvent fileId)).length = 1 := by
  have h1 := beginScan_not_locked st fileId h
  have hmem : fileId ∈ (beginScan st fileId).1.scanningJobs := by
    rw [h1]
    exact List.mem_cons_self _ _
  have h2 : beginScan (beginScan st fileId).1 fileId
      = ((beginScan st fileId).1, ([], false)) := beginScan_locked _ _ hmem
  refine ⟨by rw [h1], h2, ?_⟩
  show (((beginScan st fileId).2.1 ++ (beginScan (beginScan st fileId).1 fileId).2.1 ++
      (scanPending (beginScan (beginScan st fileId).1 fileId).1 fileId).2 ++
      (scanFinal cfg rem (scanPending (beginScan (beginScan st fileId).1 fileId).1 fileId).1
        fileId now).2.1).filter (isTerminalEvent fileId)).length = 1
  rw [h2]
  rw [h1]
  simp only [scanPending, List.filter_append, List.length_append]
  rw [scanFinal_terminal_filter]
  simp [isTerminalEvent]

theorem mem_mapSet {α : Type} {m : List (String × α)} {k : String} {v : α}
    {p : String × α} (h : p ∈ mapSet m k v) : p ∈ m ∨ p = (k, v) := by
  unfold mapSet at h
  by_cases hm : m.any (fun q => q.1 == k)
  · rw [if_pos hm] at h
    rcases List.mem_map.mp h with ⟨q, hq, himg⟩
    by_cases hqk : (q.1 == k) = true
    · right
      rw [if_pos (by exact_mod_cast hqk)] at himg
      exact himg.symm
    · left
      rw [if_neg (by simpa using hqk)] at himg
      rw [← himg]
      exact hq
  · rw [if_neg hm] at h
    rcases List.mem_append.mp h with h1 | h1
    · exact Or.inl h1
    · right
      simpa using h1

theorem self_mem_mapSet {α : Type} (m : List (String × α)) (k : String) (v : α) :
    (k, v) ∈ mapSet m k v := by
  unfold mapSet
  by_cases hm : m.any (fun q => q.1 == k)
  · rw [if_pos hm]
    rcases List.any_eq_true.mp hm with ⟨q, hq, hqk⟩
    refine List.mem_map.mpr ⟨q, hq, ?_⟩
    rw [if_pos (by exact_mod_cast hqk)]
  · rw [if_neg hm]
    exact List.mem_append.mpr (Or.inr (List.mem_singleton.mpr rfl))

theorem key_mem_mapSet {α : Type} {m : List (String × α)} {k : String}
    (k' : String) (v' : α) (h : ∃ v, (k, v) ∈ m) :
    ∃ v, (k, v) ∈ mapSet m k' v' := by
  obtain ⟨v, hv⟩ := h
  unfold mapSet
  by_cases hm : m.any (fun q => q.1 == k')
  · rw [if_pos hm]
    by_cases hkk : (k == k') = true
    · have hk : k = k' := by simpa using hkk
      subst hk
      exact ⟨v', List.mem_map.mpr ⟨(k, v), hv, by rw [if_pos (by simp)]⟩⟩
    · refine ⟨v, List.mem_map.mpr ⟨(k, v), hv, ?_⟩⟩
      rw [if_neg (by simpa using hkk)]
  · rw [if_neg hm]
    exact ⟨v, List.mem_append.mpr (Or.inl hv)⟩

theorem mem_buildMap {l : List FileRecord} :
    ∀ {m : List (String × FileRecord)} {p : String × FileRecord},
      p ∈ buildMap l m → p ∈ m ∨ (p.2 ∈ l ∧ p.1 = p.2.id) := by
  induction l with
  | nil =>
    intro m p h
    exact Or.inl h
  | cons f rest ih =>
    intro m p h
    rw [buildMap] at h
    rcases ih h with h1 | h1
    · rcases mem_mapSet h1 with h2 | h2
      · exact Or.inl h2
      · right
        rw [h2]
        exact ⟨List.mem_cons_self _ _, rfl⟩
    · right
      exact ⟨List.mem_cons_of_mem _ h1.1, h1.2⟩

theorem key_mem_buildMap {l : List FileRecord} :
    ∀ {m : List (String × FileRecord)} {k : String},
      (∃ v, (k, v) ∈ m) ∨ k ∈ l.map (fun f => f.id) →
      ∃ v, (k, v) ∈ buildMap l m := by
  induction l with
  | nil =>
    intro m k h
    rcases h with h | h
    · exact h
    · simp at h
  | cons f rest ih =>
    intro m k h
    rw [buildMap]
    rcases h with h | h
    · exact ih (Or.inl (key_mem_mapSet _ _ h))
    · simp only [List.map_cons, List.mem_cons] at h
      rcases h with h1 | h1
      · subst h1
        exact ih (Or.inl ⟨f, self_mem_mapSet m f.id f⟩)
      · exact ih (Or.inr h1)

theorem detectLoop1_spec (old : List (String × FileRecord)) :
    ∀ (l : List (String × FileRecord)) (ch : Changes) (ss : List (String × ScanRecord)),
    (detectLoop1 old l ch ss).1.added
        = ch.added ++ (l.filter (addCond old)).map (fun p => p.2)
    ∧ (detectLoop1 old l ch ss).1.modified
        = ch.modified ++ (l.filter (modCond old)).map (fun p => p.2)
    ∧ (detectLoop1 old l ch ss).1.deleted = ch.deleted
    ∧ (detectLoop1 old l ch ss).2
        = ss.filter (fun e =>
            !((l.filter (modCond old)).map (fun p => p.1)).contains e.1) := by
  intro l
  induction l with
  | nil =>
    intro ch ss
    refine ⟨by simp [detectLoop1], by simp [detectLoop1], rfl, ?_⟩
    simp [detectLoop1]
  | cons p rest ih =>
    intro ch ss
    rw [detectLoop1]
    rcases hfind : old.find? (fun q => q.1 == p.1) with _ | q
    all_goals simp only [hfind]
    · have hadd : addCond old p = true := by simp [addCond, hfind]
      have hmod : modCond old p = false := by simp [modCond, hfind]
      obtain ⟨ih1, ih2, ih3, ih4⟩ := ih { ch with added := ch.added ++ [p.2], hasChanges := true } ss
      refine ⟨?_, ?_, ?_, ?_⟩
      · rw [ih1]
        simp [List.filter_cons, hadd, List.append_assoc]
      · rw [ih2]
        simp [List.filter_cons, hmod]
      · exact ih3
      · rw [ih4]
        simp [List.filter_cons, hmod]
    · by_cases hcond : q.2.modifiedTime ≠ p.2.modifiedTime ∨ q.2.source ≠ p.2.source
      · rw [if_pos hcond]
        have hadd : addCond old p = false := by simp [addCond, hfind]
        have hmod : modCond old p = true := by simp [modCond, hfind, hcond]
        obtain ⟨ih1, ih2, ih3, ih4⟩ := ih
          { ch with modified := ch.modified ++ [p.2], hasChanges := true }
          (storeDelete ss p.1)
        refine ⟨?_, ?_, ?_, ?_⟩
        · rw [ih1]
          simp [List.filter_cons, hadd]
        · rw [ih2]
          simp [List.filter_cons, hmod, List.append_assoc]
        · exact ih3
        · rw [ih4]
          unfold storeDelete
          rw [List.filter_filter]
          refine List.filter_congr ?_
          intro e he
          simp [List.filter_cons, hmod, Bool.and_comm, bne]
      · rw [if_neg hcond]
        have hadd : addCond old p = false := by simp [addCond, hfind]
        have hmod : modCond old p = false := by
          push_neg at hcond
          simp [modCond, hfind, hcond.1, hcond.2]
        obtain ⟨ih1, ih2, ih3, ih4⟩ := ih ch ss
        refine ⟨?_, ?_, ?_, ?_⟩
        · rw [ih1]
          simp [List.filter_cons, hadd]
        · rw [ih2]
          simp [List.filter_cons, hmod]
        · exact ih3
        · rw [ih4]
          simp [List.filter_cons, hmod]

theorem detectLoop2_spec (nw : List (String × FileRecord)) :
    ∀ (l : List (String × FileRecord)) (ch : Changes) (ss : List (String × ScanRecord)),
    (detectLoop2 nw l ch ss).1.added = ch.added
    ∧ (detectLoop2 nw l ch ss).1.modified = ch.modified
    ∧ (detectLoop2 nw l ch ss).1.deleted
        = ch.deleted ++ (l.filter (delCond nw)).map (fun p => p.2)
    ∧ (detectLoop2 nw l ch ss).2
        = ss.filter (fun e =>
            !((l.filter (delCond nw)).map (fun p => p.1)).contains e.1) := by
  intro l
  induction l with
  | nil =>
    intro ch ss
    refine ⟨rfl, rfl, by simp [detectLoop2], ?_⟩
    simp [detectLoop2]
  | cons p rest ih =>
    intro ch ss
    rw [detectLoop2]
    by_cases hdel : (nw.find? (fun q => q.1 == p.1)).isNone
    · rw [if_pos hdel]
      have hc : delCond nw p = true := hdel
      obtain ⟨ih1, ih2, ih3, ih4⟩ := ih
        { ch with deleted := ch.deleted ++ [p.2], hasChanges := true }
        (storeDelete ss p.1)
      refine ⟨ih1, ih2, ?_, ?_⟩
      · rw [ih3]
        simp [List.filter_cons, hc, List.append_assoc]
      · rw [ih4]
        unfold storeDelete
        rw [List.filter_filter]
        refine List.filter_congr ?_
        intro e he
        simp [List.filter_cons, hc, Bool.and_comm, bne]
    · rw [if_neg hdel]
      have hc : delCond nw p = false := by
        unfold delCond
        exact Bool.eq_false_iff.mpr hdel
      obtain ⟨ih1, ih2, ih3, ih4⟩ := ih ch ss
      refine ⟨ih1, ih2, ?_, ?_⟩
      · rw [ih3]
        simp [List.filter_cons, hc]
      · rw [ih4]
        simp [List.filter_cons, hc]

theorem detectLoop2_hasChanges_mono (nw : List (String × FileRecord)) :
    ∀ (l : List (String × FileRecord)) (ch : Changes) (ss : List (String × ScanRecord)),
    ch.hasChanges = true → (detectLoop2 nw l ch ss).1.hasChanges = true := by
  intro l
  induction l with
  | nil =>
    intro ch ss h
    exact h
  | cons p rest ih =>
    intro ch ss h
    rw [detectLoop2]
    by_cases hdel : (nw.find? (fun q => q.1 == p.1)).isNone
    · rw [if_pos hdel]
      exact ih _ _ rfl
    · rw [if_neg hdel]
      exact ih _ _ h

theorem detectLoop2_hasChanges_of_del (nw : List (String × FileRecord)) :
    ∀ (l : List (String × FileRecord)) (ch : Changes) (ss : List (String × ScanRecord))
      (p : String × FileRecord), p ∈ l → delCond nw p = true →
    (detectLoop2 nw l ch ss).1.hasChanges = true := by
  intro l
  induction l with
  | nil =>
    intro ch ss p hp
    cases hp
  | cons q rest ih =>
    intro ch ss p hp hc
    rw [detectLoop2]
    rcases List.mem_cons.mp hp with h1 | h1
    · subst h1
      rw [if_pos (show (List.find? (fun q => q.1 == p.1) nw).isNone = true from hc)]
      exact detectLoop2_hasChanges_mono nw rest _ _ rfl
    · by_cases hdel : (nw.find? (fun r => r.1 == q.1)).isNone
      · rw [if_pos hdel]
        exact ih _ _ p h1 hc
      · rw [if_neg hdel]
        exact ih _ _ p h1 hc

/-- Claim C3 (amended): `detectChanges` does mutate the scan map — it
removes exactly the scan records whose key is a modified or deleted id,
and leaves every other entry (and all other state) untouched. -/
theorem detectChanges_scanStore_effect (P : List FileRecord)
    (σ : List (String × ScanRecord)) (C : List FileRecord) :
    (detectChanges P σ C).2
      = σ.filter (fun e =>
          !((detectChanges P σ C).1.deleted.map (fun f => f.id)).contains e.1
          && !((detectChanges P σ C).1.modified.map (fun f => f.id)).contains e.1) := by
  unfold detectChanges
  obtain ⟨a1, m1, d1, s1⟩ :=
    detectLoop1_spec (buildMap P []) (buildMap C []) ⟨[], [], [], false⟩ σ
  obtain ⟨a2, m2, d2, s2⟩ :=
    detectLoop2_spec (buildMap C []) (buildMap P [])
      (detectLoop1 (buildMap P []) (buildMap C []) ⟨[], [], [], false⟩ σ).1
      (detectLoop1 (buildMap P []) (buildMap C []) ⟨[], [], [], false⟩ σ).2
  rw [s2, s1, m2, m1, d2, d1]
  rw [List.filter_filter]
  refine (List.filter_congr ?_).symm
  intro e he
  have hkeys : ∀ (l : List FileRecord) (c : (String × FileRecord) → Bool),
      ((buildMap l []).filter c).map (fun p => p.1)
        = (((buildMap l []).filter c).map (fun p => p.2)).map (fun f => f.id) := by
    intro l c
    rw [List.map_map]
    refine List.map_congr_left ?_
    intro p hp
    rcases mem_buildMap (List.mem_filter.mp hp).1 with h | h
    · cases h
    · exact h.2
  rw [hkeys, hkeys]
  simp [Bool.and_comm]

theorem buildMap_eq_of_nodup :
    ∀ (l : List FileRecord) (m : List (String × FileRecord)),
    ((m.map (fun p => p.1)) ++ l.map (fun f => f.id)).Nodup →
    buildMap l m = m ++ l.map (fun f => (f.id, f)) := by
  intro l
  induction l with
  | nil =>
    intro m _
    simp [buildMap]
  | cons f rest ih =>
    intro m hnd
    rw [buildMap]
    have hfresh : f.id ∉ m.map (fun p => p.1) := by
      intro hmem
      have := (List.nodup_append.mp hnd).2.2
      exact this hmem (by simp)
    have hany : m.any (fun q => q.1 == f.id) = false := by
      rw [Bool.eq_false_iff]
      intro hc
      rcases List.any_eq_true.mp hc with ⟨q, hq, hqk⟩
      exact hfresh (List.mem_map.mpr ⟨q, hq, by simpa using hqk⟩)
    have hset : mapSet m f.id f = m ++ [(f.id, f)] := by
      unfold mapSet
      rw [if_neg (by simp [hany])]
    rw [hset, ih (m ++ [(f.id, f)]) (by
      simp only [List.map_append, List.map_cons, List.map_nil, List.append_assoc,
        List.singleton_append] at hnd ⊢
      simpa using hnd)]
    simp

theorem jsSort_perm : ∀ (l : List FileRecord), List.Perm (jsSort l) l := by
  have hins : ∀ (a : FileRecord) (l : List FileRecord),
      List.Perm (jsInsert a l) (a :: l) := by
    intro a l
    induction l with
    | nil => exact List.Perm.refl _
    | cons b l ih =>
      rw [jsInsert]
      by_cases hle : sortLe a b
      · rw [if_pos hle]
      · rw [if_neg hle]
        exact (ih.cons b).trans (List.Perm.swap a b l)
  intro l
  induction l with
  | nil => exact List.Perm.refl _
  | cons a l ih =>
    rw [jsSort]
    exact (hins a (jsSort l)).trans (ih.cons a)

theorem detectChanges_lists (P C : List FileRecord)
    (σ : List (String × ScanRecord))
    (hP : (P.map (fun f => f.id)).Nodup) (hC : (C.map (fun f => f.id)).Nodup) :
    (detectChanges P σ C).1.added
        = C.filter (fun f => (P.find? (fun g => g.id == f.id)).isNone)
    ∧ (detectChanges P σ C).1.modified
        = C.filter (fun f =>
            match P.find? (fun g => g.id == f.id) with
            | none => false
            | some g => decide (g.modifiedTime ≠ f.modifiedTime ∨ g.source ≠ f.source))
    ∧ (detectChanges P σ C).1.deleted
        = P.filter (fun g => (C.find? (fun f => f.id == g.id)).isNone) := by
  have hmC : buildMap C [] = C.map (fun f => (f.id, f)) := by
    have h0 := buildMap_eq_of_nodup C [] (by simpa using hC)
    simpa using h0
  have hmP : buildMap P [] = P.map (fun f => (f.id, f)) := by
    have h0 := buildMap_eq_of_nodup P [] (by simpa using hP)
    simpa using h0
  have hpush : ∀ (l : List FileRecord) (c : (String × FileRecord) → Bool),
      ((l.map (fun f => (f.id, f))).filter c).map (fun p => p.2)
        = l.filter (fun f => c (f.id, f)) := by
    intro l c
    rw [List.filter_map, List.map_map]
    have h1 : ((fun p : String × FileRecord => p.2) ∘ fun f => (f.id, f)) = fun f => f := rfl
    rw [h1, List.map_id']
    rfl
  have hfindP : ∀ f : FileRecord,
      (P.map (fun x => (x.id, x))).find? (fun q => q.1 == f.id)
        = (P.find? (fun g => g.id == f.id)).map (fun x => (x.id, x)) := by
    intro f
    rw [List.find?_map]
    rfl
  have hfindC : ∀ g : FileRecord,
      (C.map (fun x => (x.id, x))).find? (fun q => q.1 == g.id)
        = (C.find? (fun f => f.id == g.id)).map (fun x => (x.id, x)) := by
    intro g
    rw [List.find?_map]
    rfl
  unfold detectChanges
  rw [hmC, hmP]
  obtain ⟨a1, m1, d1, s1⟩ := detectLoop1_spec (P.map (fun f => (f.id, f)))
    (C.map (fun f => (f.id, f))) ⟨[], [], [], false⟩ σ
  obtain ⟨a2, m2, d2, s2⟩ := detectLoop2_spec (C.map (fun f => (f.id, f)))
    (P.map (fun f => (f.id, f)))
    (detectLoop1 (P.map (fun f => (f.id, f))) (C.map (fun f => (f.id, f)))
      ⟨[], [], [], false⟩ σ).1
    (detectLoop1 (P.map (fun f => (f.id, f))) (C.map (fun f => (f.id, f)))
      ⟨[], [], [], false⟩ σ).2
  refine ⟨?_, ?_, ?_⟩
  · rw [a2, a1]
    simp only [List.nil_append]
    rw [hpush]
    refine List.filter_congr ?_
    intro f _
    unfold addCond
    rw [hfindP f, Option.isNone_map']
  · rw [m2, m1]
    simp only [List.nil_append]
    rw [hpush]
    refine List.filter_congr ?_
    intro f _
    unfold modCond
    rw [hfindP f]
    rcases hfp : P.find? (fun g => g.id == f.id) with _ | g
    · rw [hfp]
      rfl
    · rw [hfp]
      rfl
  · rw [d2, d1]
    simp only [List.nil_append]
    rw [hpush]
    refine List.filter_congr ?_
    intro g _
    unfold delCond
    rw [hfindC g, Option.isNone_map']

/-- Claim C2: for snapshots with unique ids, `detectChanges` assigns every
id of the current snapshot to exactly one of added / modified / unchanged
— added exactly when the id is absent from the previous snapshot,
modified exactly when it is present there with a differing `modifiedTime`
or `source` — and the deleted ids are exactly the previous ids absent
from the current snapshot. -/
theorem detect_partitions (P C : List FileRecord) (σ : List (String × ScanRecord))
    (hP : (P.map (fun f => f.id)).Nodup) (hC : (C.map (fun f => f.id)).Nodup) :
    (∀ g ∈ (detectChanges P σ C).1.added, g ∈ C)
    ∧ (∀ g ∈ (detectChanges P σ C).1.modified, g ∈ C)
    ∧ (∀ f ∈ C,
        (f.id ∈ (detectChanges P σ C).1.added.map (fun g => g.id)
          ↔ f.id ∉ P.map (fun g => g.id))
        ∧ (f.id ∈ (detectChanges P σ C).1.modified.map (fun g => g.id)
          ↔ ∃ g ∈ P, g.id = f.id
              ∧ (g.modifiedTime ≠ f.modifiedTime ∨ g.source ≠ f.source)))
    ∧ (∀ i, i ∈ (detectChanges P σ C).1.deleted.map (fun g => g.id)
        ↔ (i ∈ P.map (fun g => g.id) ∧ i ∉ C.map (fun g => g.id))) := by
  obtain ⟨ha, hm, hd⟩ := detectChanges_lists P C σ hP hC
  rw [ha, hm, hd]
  refine ⟨fun g hg => (List.mem_filter.mp hg).1,
    fun g hg => (List.mem_filter.mp hg).1, ?_, ?_⟩
  · intro f hf
    constructor
    · constructor
      · intro hmem hPin
        rcases List.mem_map.mp hmem with ⟨g, hg, hgid⟩
        obtain ⟨hgC, hcond⟩ := List.mem_filter.mp hg
        rcases List.mem_map.mp hPin with ⟨x, hx, hxid⟩
        have hnone := Option.isNone_iff_eq_none.mp hcond
        have hx' := List.find?_eq_none.mp hnone x hx
        apply hx'
        rw [hxid, ← hgid]
        simp
      · intro hnot
        refine List.mem_map.mpr ⟨f, List.mem_filter.mpr ⟨hf, ?_⟩, rfl⟩
        apply Option.isNone_iff_eq_none.mpr
        apply List.find?_eq_none.mpr
        intro x hx
        simp only [beq_iff_eq]
        intro heq
        exact hnot (List.mem_map.mpr ⟨x, hx, heq⟩)
    · constructor
      · intro hmem
        rcases List.mem_map.mp hmem with ⟨g, hg, hgid⟩
        obtain ⟨hgC, hcond⟩ := List.mem_filter.mp hg
        rcases hfp : P.find? (fun x => x.id == g.id) with _ | q
        · rw [hfp] at hcond
          cases hcond
        · rw [hfp] at hcond
          have hq := of_decide_eq_true hcond
          have hqP := List.mem_of_find?_eq_some hfp
          have hqid : q.id = g.id := by simpa using List.find?_some hfp
          have hgf : g = f := List.inj_on_of_nodup_map hC hgC hf hgid
          subst hgf
          exact ⟨q, hqP, by rw [hqid], hq⟩
      · intro hex
        rcases hex with ⟨g, hgP, hgid, hgcond⟩
        refine List.mem_map.mpr ⟨f, List.mem_filter.mpr ⟨hf, ?_⟩, rfl⟩
        have hsome : (P.find? (fun x => x.id == f.id)).isSome := by
          rw [List.find?_isSome]
          exact ⟨g, hgP, by simp [hgid]⟩
        rcases hfp : P.find? (fun x => x.id == f.id) with _ | q
        · rw [hfp] at hsome
          cases hsome
        · have hqP := List.mem_of_find?_eq_some hfp
          have hqid : q.id = f.id := by simpa using List.find?_some hfp
          have hqg : q = g := List.inj_on_of_nodup_map hP hqP hgP (by rw [hqid, hgid])
          rw [hfp]
          subst hqg
          exact decide_eq_true hgcond
  · intro i
    constructor
    · intro hmem
      rcases List.mem_map.mp hmem with ⟨g, hg, hgid⟩
      obtain ⟨hgP, hcond⟩ := List.mem_filter.mp hg
      have hnone := Option.isNone_iff_eq_none.mp hcond
      refine ⟨List.mem_map.mpr ⟨g, hgP, hgid⟩, ?_⟩
      intro hiC
      rcases List.mem_map.mp hiC with ⟨x, hx, hxid⟩
      have hx' := List.find?_eq_none.mp hnone x hx
      apply hx'
      rw [hxid, ← hgid]
      simp
    · intro hpair
      obtain ⟨hiP, hiC⟩ := hpair
      rcases List.mem_map.mp hiP with ⟨g, hgP, hgid⟩
      refine List.mem_map.mpr ⟨g, List.mem_filter.mpr ⟨hgP, ?_⟩, hgid⟩
      apply Option.isNone_iff_eq_none.mpr
      apply List.find?_eq_none.mpr
      intro x hx
      simp only [beq_iff_eq]
      intro heq
      exact hiC (List.mem_map.mpr ⟨x, hx, by rw [heq, hgid]⟩)

theorem storeGet_filter_none {α : Type} (σ : List (String × α))
    (p : (String × α) → Bool) (k : String)
    (h : ∀ e ∈ σ, e.1 = k → p e = false) :
    storeGet (σ.filter p) k = none := by
  unfold storeGet
  have hfind : (σ.filter p).find? (fun e => e.1 == k) = none := by
    apply List.find?_eq_none.mpr
    intro x hx
    obtain ⟨hxσ, hpx⟩ := List.mem_filter.mp hx
    simp only [beq_iff_eq]
    intro heq
    rw [h x hxσ heq] at hpx
    cases hpx
  rw [hfind]
  rfl

theorem launchScans_preserves (id : String) :
    ∀ (L : List FileRecord) (st : LocalState) (evs : List Event),
    (∀ f ∈ L, f.id ≠ id) →
    storeGet (launchScans L st evs).1.scanStore id = storeGet st.scanStore id
    ∧ (id ∈ st.scanningJobs → id ∈ (launchScans L st evs).1.scanningJobs) := by
  intro L
  induction L with
  | nil =>
    intro st evs _
    exact ⟨rfl, fun h1 => h1⟩
  | cons f rest ih =>
    intro st evs h
    have hne : id ≠ f.id := Ne.symm (h f (List.mem_cons_self _ _))
    have htail : ∀ g ∈ rest, g.id ≠ id := fun g hg => h g (List.mem_cons_of_mem _ hg)
    simp only [launchScans]
    by_cases hmem : f.id ∈ st.scanningJobs
    · rw [if_pos hmem]
      exact ih st evs htail
    · rw [if_neg hmem]
      rw [beginScan_not_locked
          ⟨st.fileStore, mapSet st.scanStore f.id ⟨ScanStatus.scanning, none⟩,
            st.scanningJobs⟩ f.id hmem]
      obtain ⟨ih1, ih2⟩ := ih
        ⟨st.fileStore,
          mapSet (mapSet st.scanStore f.id ⟨ScanStatus.scanning, none⟩) f.id
            ⟨ScanStatus.scanning, none⟩,
          f.id :: st.scanningJobs⟩ (evs ++ [Event.fileList]) htail
      constructor
      · rw [ih1]
        show storeGet (mapSet (mapSet st.scanStore f.id ⟨ScanStatus.scanning, none⟩)
            f.id ⟨ScanStatus.scanning, none⟩) id = storeGet st.scanStore id
        rw [storeGet_mapSet_ne _ _ _ _ hne, storeGet_mapSet_ne _ _ _ _ hne]
      · intro hid
        exact ih2 (List.mem_cons_of_mem _ hid)

/-- Claim C7 (amended): when a reconciliation pass finds that a known file
id (possibly mid-scan) has disappeared from the listings, it clears the
id's ScanRecord, but it does NOT clear the id's ActivityLock membership:
a locked id is still locked after the pass (the lock is only released by
the in-flight sequence itself). -/
theorem reconcile_delete_effect (st : LocalState) (newFiles : List FileRecord)
    (id : String) (hin : id ∈ st.scanningJobs)
    (hwas : id ∈ st.fileStore.map (fun f => f.id))
    (hgone : ∀ f ∈ newFiles, f.id ≠ id) :
    storeGet (pollApply st newFiles).1.scanStore id = none
    ∧ id ∈ (pollApply st newFiles).1.scanningJobs := by
  obtain ⟨v, hv⟩ := @key_mem_buildMap st.fileStore [] id (Or.inr hwas)
  have hvid : v ∈ st.fileStore ∧ id = v.id := by
    rcases mem_buildMap hv with h1 | h1
    · exact absurd h1 (List.not_mem_nil _)
    · exact ⟨h1.1, h1.2⟩
  have hfindnw : (buildMap newFiles []).find? (fun q => q.1 == id) = none := by
    apply List.find?_eq_none.mpr
    intro q hq
    rcases mem_buildMap hq with h1 | h1
    · exact absurd h1 (List.not_mem_nil _)
    · simp only [beq_iff_eq]
      intro heq
      exact hgone q.2 h1.1 (by rw [← h1.2, heq])
  have hdel : delCond (buildMap newFiles []) (id, v) = true := by
    unfold delCond
    rw [hfindnw]
    rfl
  have hHas : (detectChanges st.fileStore st.scanStore newFiles).1.hasChanges = true := by
    exact detectLoop2_hasChanges_of_del (buildMap newFiles []) (buildMap st.fileStore [])
      (detectLoop1 (buildMap st.fileStore []) (buildMap newFiles [])
        ⟨[], [], [], false⟩ st.scanStore).1
      (detectLoop1 (buildMap st.fileStore []) (buildMap newFiles [])
        ⟨[], [], [], false⟩ st.scanStore).2
      (id, v) hv hdel
  have hidDel : id ∈ (detectChanges st.fileStore st.scanStore newFiles).1.deleted.map
      (fun f => f.id) := by
    have hdeleted : (detectChanges st.fileStore st.scanStore newFiles).1.deleted
        = ((buildMap st.fileStore []).filter
            (delCond (buildMap newFiles []))).map (fun p => p.2) := by
      unfold detectChanges
      obtain ⟨a1, m1, d1, s1⟩ := detectLoop1_spec (buildMap st.fileStore [])
        (buildMap newFiles []) ⟨[], [], [], false⟩ st.scanStore
      obtain ⟨a2, m2, d2, s2⟩ := detectLoop2_spec (buildMap newFiles [])
        (buildMap st.fileStore [])
        (detectLoop1 (buildMap st.fileStore []) (buildMap newFiles [])
          ⟨[], [], [], false⟩ st.scanStore).1
        (detectLoop1 (buildMap st.fileStore []) (buildMap newFiles [])
          ⟨[], [], [], false⟩ st.scanStore).2
      rw [d2, d1]
      simp
    rw [hdeleted]
    refine List.mem_map.mpr ⟨v, List.mem_map.mpr ⟨(id, v), List.mem_filter.mpr ⟨hv, hdel⟩, rfl⟩, hvid.2.symm⟩
  have hscan : storeGet (detectChanges st.fileStore st.scanStore newFiles).2 id = none := by
    rw [detectChanges_scanStore_effect]
    apply storeGet_filter_none
    intro e he heq
    have hcont : ((detectChanges st.fileStore st.scanStore newFiles).1.deleted.map
        (fun f => f.id)).contains e.1 = true := by
      rw [heq]
      exact List.elem_iff.mpr hidDel
    rw [hcont]
    rfl
  have hsub : ∀ f ∈ ((detectChanges st.fileStore st.scanStore newFiles).1.added
      ++ (detectChanges st.fileStore st.scanStore newFiles).1.modified).filter
        (fun f => f.source == Source.scan), f.id ≠ id := by
    intro f hf
    have hf1 := (List.mem_filter.mp hf).1
    have hf2 : f ∈ newFiles := by
      unfold detectChanges at hf1
      obtain ⟨a1, m1, d1, s1⟩ := detectLoop1_spec (buildMap st.fileStore [])
        (buildMap newFiles []) ⟨[], [], [], false⟩ st.scanStore
      obtain ⟨a2, m2, d2, s2⟩ := detectLoop2_spec (buildMap newFiles [])
        (buildMap st.fileStore [])
        (detectLoop1 (buildMap st.fileStore []) (buildMap newFiles [])
          ⟨[], [], [], false⟩ st.scanStore).1
        (detectLoop1 (buildMap st.fileStore []) (buildMap newFiles [])
          ⟨[], [], [], false⟩ st.scanStore).2
      rw [List.mem_append, a2, a1, m2, m1] at hf1
      simp only [List.nil_append] at hf1
      rcases hf1 with h1 | h1 <;>
      · rcases List.mem_map.mp h1 with ⟨p, hp, hpf⟩
        rcases mem_buildMap (List.mem_filter.mp hp).1 with h2 | h2
        · exact absurd h2 (List.not_mem_nil _)
        · rw [← hpf]
          exact h2.1
    exact hgone f hf2
  simp only [pollApply]
  rw [if_pos hHas]
  obtain ⟨l1, l2⟩ := launchScans_preserves id
    (((detectChanges st.fileStore st.scanStore newFiles).1.added
      ++ (detectChanges st.fileStore st.scanStore newFiles).1.modified).filter
        (fun f => f.source == Source.scan))
    ⟨newFiles, (detectChanges st.fileStore st.scanStore newFiles).2,
      st.scanningJobs⟩ [] hsub
  constructor
  · rw [l1]
    exact hscan
  · exact l2 hin

theorem keys_mapSet {α : Type} (m : List (String × α)) (k : String) (v : α) :
    (mapSet m k v).map (fun p => p.1)
      = if m.any (fun p => p.1 == k) then m.map (fun p => p.1)
        else m.map (fun p => p.1) ++ [k] := by
  unfold mapSet
  by_cases hm : m.any (fun p => p.1 == k)
  · rw [if_pos hm, if_pos hm, List.map_map]
    refine List.map_congr_left ?_
    intro p hp
    by_cases hpk : (p.1 == k) = true
    · simp only [Function.comp]
      rw [if_pos (by exact_mod_cast hpk)]
      exact (show p.1 = k from by simpa using hpk).symm
    · simp only [Function.comp]
      rw [if_neg (by simpa using hpk)]
  · rw [if_neg hm, if_neg hm, List.map_append]
    rfl

theorem buildMap_keys_nodup :
    ∀ (l : List FileRecord) (m : List (String × FileRecord)),
    (m.map (fun p => p.1)).Nodup → ((buildMap l m).map (fun p => p.1)).Nodup := by
  intro l
  induction l with
  | nil =>
    intro m h
    exact h
  | cons f rest ih =>
    intro m h
    rw [buildMap]
    apply ih
    rw [keys_mapSet]
    by_cases hm : m.any (fun p => p.1 == f.id)
    · rw [if_pos hm]
      exact h
    · rw [if_neg hm]
      have hfresh : f.id ∉ m.map (fun p => p.1) := by
        intro hc
        rcases List.mem_map.mp hc with ⟨p, hp, hpk⟩
        exact absurd (List.any_eq_true.mpr ⟨p, hp, by simp [hpk]⟩) hm
      rw [List.nodup_append]
      refine ⟨h, List.nodup_singleton _, ?_⟩
      intro a ha hb
      rw [List.mem_singleton.mp hb] at ha
      exact hfresh ha

theorem mem_mapSet_ne_iff {α : Type} {m : List (String × α)} {k sk : String}
    {v sv : α} (hne : (k == sk) = false) :
    (k, v) ∈ mapSet m sk sv ↔ (k, v) ∈ m := by
  unfold mapSet
  by_cases hm : m.any (fun p => p.1 == sk)
  · rw [if_pos hm]
    constructor
    · intro h
      rcases List.mem_map.mp h with ⟨q, hq, himg⟩
      by_cases hq1 : (q.1 == sk) = true
      · rw [if_pos (by exact_mod_cast hq1)] at himg
        exfalso
        have hk : sk = k := congrArg Prod.fst himg
        rw [← hk] at hne
        simp at hne
      · rw [if_neg (by simpa using hq1)] at himg
        rw [← himg]
        exact hq
    · intro h
      refine List.mem_map.mpr ⟨(k, v), h, ?_⟩
      rw [if_neg (by simpa using hne)]
  · rw [if_neg hm]
    constructor
    · intro h
      rcases List.mem_append.mp h with h1 | h1
      · exact h1
      · exfalso
        have hk : k = sk := congrArg Prod.fst (List.mem_singleton.mp h1)
        rw [hk] at hne
        simp at hne
    · intro h
      exact List.mem_append.mpr (Or.inl h)

theorem mem_mapSet_self_eq {α : Type} {m : List (String × α)} {k : String}
    {v sv : α} (h : (k, v) ∈ mapSet m k sv) : v = sv := by
  unfold mapSet at h
  by_cases hm : m.any (fun p => p.1 == k)
  · rw [if_pos hm] at h
    rcases List.mem_map.mp h with ⟨q, hq, himg⟩
    by_cases hq1 : (q.1 == k) = true
    · rw [if_pos (by exact_mod_cast hq1)] at himg
      exact (congrArg Prod.snd himg).symm
    · rw [if_neg (by simpa using hq1)] at himg
      exfalso
      apply hq1
      rw [himg]
      simp
  · rw [if_neg hm] at h
    rcases List.mem_append.mp h with h1 | h1
    · exfalso
      exact absurd (List.any_eq_true.mpr ⟨(k, v), h1, by simp⟩) hm
    · exact congrArg Prod.snd (List.mem_singleton.mp h1)

theorem not_key_buildMap_mem_iff :
    ∀ (l : List FileRecord) (m : List (String × FileRecord)) (k : String)
      (v : FileRecord), k ∉ l.map (fun f => f.id) →
      ((k, v) ∈ buildMap l m ↔ (k, v) ∈ m) := by
  intro l
  induction l with
  | nil =>
    intro m k v _
    exact Iff.rfl
  | cons f rest ih =>
    intro m k v h
    rw [buildMap]
    simp only [List.map_cons, List.mem_cons, not_or] at h
    rw [ih _ _ _ h.2, mem_mapSet_ne_iff (by simp [h.1])]

theorem buildMap_key_latest :
    ∀ (l : List FileRecord) (m : List (String × FileRecord)) {k : String}
      {v : FileRecord}, k ∈ l.map (fun f => f.id) → (k, v) ∈ buildMap l m →
      v ∈ l ∧ v.id = k := by
  intro l
  induction l with
  | nil =>
    intro m k v h
    simp at h
  | cons f rest ih =>
    intro m k v hk hmem
    rw [buildMap] at hmem
    by_cases hrest : k ∈ rest.map (fun g => g.id)
    · obtain ⟨h1, h2⟩ := ih _ hrest hmem
      exact ⟨List.mem_cons_of_mem _ h1, h2⟩
    · have hkf : k = f.id := by
        simp only [List.map_cons, List.mem_cons] at hk
        rcases hk with h1 | h1
        · exact h1
        · exact absurd h1 hrest
      subst hkf
      have hmem' := (not_key_buildMap_mem_iff rest _ _ _ hrest).mp hmem
      have hvf := mem_mapSet_self_eq hmem'
      subst hvf
      exact ⟨List.mem_cons_self _ _, rfl⟩

theorem mem_jsInsert {a x : FileRecord} :
    ∀ {l : List FileRecord}, x ∈ jsInsert a l ↔ x = a ∨ x ∈ l := by
  intro l
  induction l with
  | nil => simp [jsInsert]
  | cons b l ih =>
    rw [jsInsert]
    by_cases hle : sortLe a b
    · rw [if_pos hle]
      simp [List.mem_cons]
    · rw [if_neg hle]
      simp only [List.mem_cons, ih]
      tauto

theorem sortLe_iff_of_times {a b : FileRecord} (ha : a.modifiedTime.isSome)
    (hb : b.modifiedTime.isSome) :
    sortLe a b = true ↔ b.modifiedTime.getD 0 ≤ a.modifiedTime.getD 0 := by
  obtain ⟨ta, hta⟩ := Option.isSome_iff_exists.mp ha
  obtain ⟨tb, htb⟩ := Option.isSome_iff_exists.mp hb
  unfold sortLe sortCmp
  rw [hta, htb]
  simp only [Option.getD_some]
  rw [decide_eq_true_iff]
  omega

theorem jsInsert_pairwise (a : FileRecord) (ha : a.modifiedTime.isSome) :
    ∀ (l : List FileRecord), (∀ x ∈ l, x.modifiedTime.isSome) →
    l.Pairwise (fun x y => y.modifiedTime.getD 0 ≤ x.modifiedTime.getD 0) →
    (jsInsert a l).Pairwise (fun x y => y.modifiedTime.getD 0 ≤ x.modifiedTime.getD 0) := by
  intro l
  induction l with
  | nil =>
    intro _ _
    simp [jsInsert]
  | cons b l ih =>
    intro hall hp
    have hb := hall b (List.mem_cons_self _ _)
    obtain ⟨hhead, htail⟩ := List.pairwise_cons.mp hp
    rw [jsInsert]
    by_cases hle : sortLe a b
    · rw [if_pos hle]
      have hRab := (sortLe_iff_of_times ha hb).mp hle
      refine List.pairwise_cons.mpr ⟨?_, hp⟩
      intro y hy
      rcases List.mem_cons.mp hy with h1 | h1
      · rw [h1]
        exact hRab
      · exact le_trans (hhead y h1) hRab
    · rw [if_neg hle]
      have hRba : a.modifiedTime.getD 0 ≤ b.modifiedTime.getD 0 := by
        rcases Nat.le_total (a.modifiedTime.getD 0) (b.modifiedTime.getD 0) with h1 | h1
        · exact h1
        · exact absurd ((sortLe_iff_of_times ha hb).mpr h1) (by simpa using hle)
      refine List.pairwise_cons.mpr
        ⟨?_, ih (fun x hx => hall x (List.mem_cons_of_mem _ hx)) htail⟩
      intro y hy
      rcases mem_jsInsert.mp hy with h1 | h1
      · rw [h1]
        exact hRba
      · exact hhead y h1

theorem jsSort_pairwise (l : List FileRecord)
    (h : ∀ x ∈ l, x.modifiedTime.isSome) :
    (jsSort l).Pairwise
      (fun x y => y.modifiedTime.getD 0 ≤ x.modifiedTime.getD 0) := by
  induction l with
  | nil => simp [jsSort]
  | cons a l ih =>
    rw [jsSort]
    have hl : ∀ x ∈ l, x.modifiedTime.isSome :=
      fun x hx => h x (List.mem_cons_of_mem _ hx)
    exact jsInsert_pairwise a (h a (List.mem_cons_self _ _)) (jsSort l)
      (fun x hx => hl x ((jsSort_perm l).mem_iff.mp hx)) (ih hl)

/-- Claim C5 (amended): the merged snapshot contains each id exactly once,
with the record observed under the quarantine folder winning on a
collision, and — when every record carries a `modifiedAt` — it is sorted
by `modifiedAt` descending (non-strictly).  Equal-`modifiedAt` ties are
not reordered by name: the stable sort preserves merge order, and the
descending name comparison of the code is only a fallback used when a
`modifiedAt` is missing. -/
theorem listFiles_spec (s q : List FileRecord)
    (hall : ∀ f : FileRecord, f ∈ s ∨ f ∈ q → f.modifiedTime.isSome) :
    ((listFiles s q).map (fun f => f.id)).Nodup
    ∧ (∀ i : String, i ∈ (listFiles s q).map (fun f => f.id)
        ↔ (i ∈ s.map (fun f => f.id) ∨ i ∈ q.map (fun f => f.id)))
    ∧ (∀ f ∈ listFiles s q, f.id ∈ q.map (fun g => g.id) → f ∈ q)
    ∧ (listFiles s q).Pairwise
        (fun a b => b.modifiedTime.getD 0 ≤ a.modifiedTime.getD 0) := by
  have hentry : ∀ p ∈ buildMap q (buildMap s []), p.1 = p.2.id ∧ (p.2 ∈ s ∨ p.2 ∈ q) := by
    intro p hp
    rcases mem_buildMap hp with h1 | h1
    · rcases mem_buildMap h1 with h2 | h2
      · exact absurd h2 (List.not_mem_nil _)
      · exact ⟨h2.2, Or.inl h2.1⟩
    · exact ⟨h1.2, Or.inr h1.1⟩
  have hperm : List.Perm (listFiles s q)
      ((buildMap q (buildMap s [])).map (fun p => p.2)) := by
    unfold listFiles
    exact jsSort_perm _
  have hids : ((buildMap q (buildMap s [])).map (fun p => p.2)).map (fun f => f.id)
      = (buildMap q (buildMap s [])).map (fun p => p.1) := by
    rw [List.map_map]
    refine List.map_congr_left ?_
    intro p hp
    exact ((hentry p hp).1).symm
  have hpermids : List.Perm ((listFiles s q).map (fun f => f.id))
      ((buildMap q (buildMap s [])).map (fun p => p.1)) := by
    rw [← hids]
    exact hperm.map _
  refine ⟨?_, ?_, ?_, ?_⟩
  · rw [hpermids.nodup_iff]
    exact buildMap_keys_nodup q _ (buildMap_keys_nodup s [] (by simp))
  · intro i
    rw [hpermids.mem_iff]
    constructor
    · intro hmem
      rcases List.mem_map.mp hmem with ⟨p, hp, hpk⟩
      obtain ⟨hinv, hsq⟩ := hentry p hp
      rcases hsq with h1 | h1
      · exact Or.inl (List.mem_map.mpr ⟨p.2, h1, by rw [← hinv, hpk]⟩)
      · exact Or.inr (List.mem_map.mpr ⟨p.2, h1, by rw [← hinv, hpk]⟩)
    · intro hmem
      have hkey : ∃ v, (i, v) ∈ buildMap q (buildMap s []) := by
        rcases hmem with h1 | h1
        · exact key_mem_buildMap (Or.inl (key_mem_buildMap (Or.inr h1)))
        · exact key_mem_buildMap (Or.inr h1)
      obtain ⟨v, hv⟩ := hkey
      exact List.mem_map.mpr ⟨(i, v), hv, rfl⟩
  · intro f hf hfq
    have hf2 := hperm.mem_iff.mp hf
    rcases List.mem_map.mp hf2 with ⟨p, hp, hpf⟩
    have hinv := (hentry p hp).1
    have hpeq : p = (f.id, f) := by
      rcases p with ⟨pk, pv⟩
      simp only at hpf hinv
      rw [hpf] at hinv ⊢
      rw [hinv]
    rw [hpeq] at hp
    exact (buildMap_key_latest q _ hfq hp).1
  · unfold listFiles
    apply jsSort_pairwise
    intro x hx
    rcases List.mem_map.mp hx with ⟨p, hp, hpx⟩
    rw [← hpx]
    exact hall p.2 (hentry p hp).2

/-- Witness for C2 at a concrete input. -/
theorem detect_partitions_witness :
    ((([(⟨"a", "x.txt", "t", "0", some 1, none, none, none, Source.scan⟩ : FileRecord)].map (fun f => f.id)).Nodup ∧ ([(⟨"a", "x.txt", "t", "0", some 2, none, none, none, Source.scan⟩ : FileRecord)].map (fun f => f.id)).Nodup)
    ∧ ((∀ g ∈ (detectChanges [(⟨"a", "x.txt", "t", "0", some 1, none, none, none, Source.scan⟩ : FileRecord)] [] [(⟨"a", "x.txt", "t", "0", some 2, none, none, none, Source.scan⟩ : FileRecord)]).1.added, g ∈ [(⟨"a", "x.txt", "t", "0", some 2, none, none, none, Source.scan⟩ : FileRecord)])
      ∧ (∀ g ∈ (detectChanges [(⟨"a", "x.txt", "t", "0", some 1, none, none, none, Source.scan⟩ : FileRecord)] [] [(⟨"a", "x.txt", "t", "0", some 2, none, none, none, Source.scan⟩ : FileRecord)]).1.modified, g ∈ [(⟨"a", "x.txt", "t", "0", some 2, none, none, none, Source.scan⟩ : FileRecord)])
      ∧ (∀ f ∈ [(⟨"a", "x.txt", "t", "0", some 2, none, none, none, Source.scan⟩ : FileRecord)],
          (f.id ∈ (detectChanges [(⟨"a", "x.txt", "t", "0", some 1, none, none, none, Source.scan⟩ : FileRecord)] [] [(⟨"a", "x.txt", "t", "0", some 2, none, none, none, Source.scan⟩ : FileRecord)]).1.added.map (fun g => g.id)
            ↔ f.id ∉ [(⟨"a", "x.txt", "t", "0", some 1, none, none, none, Source.scan⟩ : FileRecord)].map (fun g => g.id))
          ∧ (f.id ∈ (detectChanges [(⟨"a", "x.txt", "t", "0", some 1, none, none, none, Source.scan⟩ : FileRecord)] [] [(⟨"a", "x.txt", "t", "0", some 2, none, none, none, Source.scan⟩ : FileRecord)]).1.modified.map (fun g => g.id)
            ↔ ∃ g ∈ [(⟨"a", "x.txt", "t", "0", some 1, none, none, none, Source.scan⟩ : FileRecord)], g.id = f.id
                ∧ (g.modifiedTime ≠ f.modifiedTime ∨ g.source ≠ f.source)))
      ∧ (∀ i : String, i ∈ (detectChanges [(⟨"a", "x.txt", "t", "0", some 1, none, none, none, Source.scan⟩ : FileRecord)] [] [(⟨"a", "x.txt", "t", "0", some 2, none, none, none, Source.scan⟩ : FileRecord)]).1.deleted.map (fun g => g.id)
          ↔ (i ∈ [(⟨"a", "x.txt", "t", "0", some 1, none, none, none, Source.scan⟩ : FileRecord)].map (fun g => g.id) ∧ i ∉ [(⟨"a", "x.txt", "t", "0", some 2, none, none, none, Source.scan⟩ : FileRecord)].map (fun g => g.id))))) :=
  ⟨⟨by decide, by decide⟩, detect_partitions [(⟨"a", "x.txt", "t", "0", some 1, none, none, none, Source.scan⟩ : FileRecord)] [(⟨"a", "x.txt", "t", "0", some 2, none, none, none, Source.scan⟩ : FileRecord)] [] (by decide) (by decide)⟩

/-- Witness for C4 at a concrete input. -/
theorem single_scan_sequence_witness :
    "f" ∉ (⟨[], [], []⟩ : LocalState).scanningJobs
    ∧ ((beginScan ⟨[], [], []⟩ "f").2.2 = true
      ∧ beginScan (beginScan ⟨[], [], []⟩ "f").1 "f"
          = ((beginScan ⟨[], [], []⟩ "f").1, ([], false))
      ∧ ((twoBeginTrace ⟨some "S", some "Q"⟩ ⟨fun _ => ["S"], fun _ => (⟨"f1", "doc.txt", "t", "0", some 5, none, none, none, Source.scan⟩ : FileRecord)⟩
            ⟨[], [], []⟩ "f" 3).filter (isTerminalEvent "f")).length = 1) :=
  ⟨by decide, single_scan_sequence ⟨some "S", some "Q"⟩ ⟨fun _ => ["S"], fun _ => (⟨"f1", "doc.txt", "t", "0", some 5, none, none, none, Source.scan⟩ : FileRecord)⟩
    ⟨[], [], []⟩ "f" 3 (by decide)⟩

/-- Witness for the amended C5 at a concrete input. -/
theorem listFiles_spec_witness :
    (∀ f : FileRecord, f ∈ [(⟨"f1", "doc.txt", "t", "0", some 5, none, none, none, Source.scan⟩ : FileRecord)] ∨ f ∈ ([] : List FileRecord) → f.modifiedTime.isSome)
    ∧ (((listFiles [(⟨"f1", "doc.txt", "t", "0", some 5, none, none, none, Source.scan⟩ : FileRecord)] []).map (fun f => f.id)).Nodup
      ∧ (∀ i : String, i ∈ (listFiles [(⟨"f1", "doc.txt", "t", "0", some 5, none, none, none, Source.scan⟩ : FileRecord)] []).map (fun f => f.id)
          ↔ (i ∈ [(⟨"f1", "doc.txt", "t", "0", some 5, none, none, none, Source.scan⟩ : FileRecord)].map (fun f => f.id) ∨ i ∈ ([] : List FileRecord).map (fun f => f.id)))
      ∧ (∀ f ∈ listFiles [(⟨"f1", "doc.txt", "t", "0", some 5, none, none, none, Source.scan⟩ : FileRecord)] [], f.id ∈ ([] : List FileRecord).map (fun g => g.id) → f ∈ ([] : List FileRecord))
      ∧ (listFiles [(⟨"f1", "doc.txt", "t", "0", some 5, none, none, none, Source.scan⟩ : FileRecord)] []).Pairwise
          (fun a b => b.modifiedTime.getD 0 ≤ a.modifiedTime.getD 0)) := by
  have hall : ∀ f : FileRecord, f ∈ [(⟨"f1", "doc.txt", "t", "0", some 5, none, none, none, Source.scan⟩ : FileRecord)] ∨ f ∈ ([] : List FileRecord) →
      f.modifiedTime.isSome := by
    intro f hf
    rcases hf with h | h
    · rw [List.mem_singleton.mp h]
      rfl
    · exact absurd h (List.not_mem_nil _)
  exact ⟨hall, listFiles_spec [(⟨"f1", "doc.txt", "t", "0", some 5, none, none, none, Source.scan⟩ : FileRecord)] [] hall⟩

/-- Witness for the amended C7 at a concrete input. -/
theorem reconcile_delete_effect_witness :
    ("f1" ∈ (⟨[(⟨"f1", "doc.txt", "t", "0", some 5, none, none, none, Source.scan⟩ : FileRecord)], [("f1", ⟨ScanStatus.scanning, none⟩)], ["f1"]⟩ : LocalState).scanningJobs
      ∧ "f1" ∈ [(⟨"f1", "doc.txt", "t", "0", some 5, none, none, none, Source.scan⟩ : FileRecord)].map (fun f => f.id)
      ∧ (∀ f ∈ ([] : List FileRecord), f.id ≠ "f1"))
    ∧ (storeGet (pollApply ⟨[(⟨"f1", "doc.txt", "t", "0", some 5, none, none, none, Source.scan⟩ : FileRecord)], [("f1", ⟨ScanStatus.scanning, none⟩)], ["f1"]⟩ []).1.scanStore "f1" = none
      ∧ "f1" ∈ (pollApply ⟨[(⟨"f1", "doc.txt", "t", "0", some 5, none, none, none, Source.scan⟩ : FileRecord)], [("f1", ⟨ScanStatus.scanning, none⟩)], ["f1"]⟩ []).1.scanningJobs) := by
  have hgone : ∀ f ∈ ([] : List FileRecord), f.id ≠ "f1" := by
    intro f h
    exact absurd h (List.not_mem_nil _)
  exact ⟨⟨by decide, by decide, hgone⟩,
    reconcile_delete_effect ⟨[(⟨"f1", "doc.txt", "t", "0", some 5, none, none, none, Source.scan⟩ : FileRecord)], [("f1", ⟨ScanStatus.scanning, none⟩)], ["f1"]⟩ []
      "f1" (by decide) (by decide) hgone⟩

end AvScan
